import Mathlib

/-!
Verification development for the OTTL statement language core and its
companion translators in this repository.

The definitions below are shallow embeddings of the Go sources:
* `pkg/ottl` grammar, capture functions and lexer rules
  (source file: `src/unnamed/part_001`);
* the resource-context path resolver `ResourcePathGetSetter` and its
  accessors (source file: `src/pkg/translator/prometheusremotewrite/helper.go`,
  second document, package `ottlcommon`);
* the cumulative-histogram bucket computation of
  `addSingleHistogramDataPoint` (same source file, package
  `prometheusremotewrite`).

Machine integers of the source (`uint64` cumulative counters, `uint32`
dropped-attribute counts, `int64` scalars) are modelled as `Nat`/`Int`
with explicit reductions modulo `2 ^ 64` / `2 ^ 32` where the source can
overflow.
-/

namespace OTTL

/-! ## compareOp (`src/unnamed/part_001`, lines 63-94) -/

/-- `compareOp` is the type of a comparison operator (Go: `type compareOp int`
with constants `EQ NE LT LTE GTE GT`). -/
inductive compareOp where
  | EQ
  | NE
  | LT
  | LTE
  | GTE
  | GT
deriving DecidableEq

/-- The fixed operator table (Go: `var compareOpTable = map[string]compareOp`).
A Go map literal is modelled as a lookup function over the same six keys. -/
def compareOpTable (s : String) : Option compareOp :=
  if s = "==" then some .EQ
  else if s = "!=" then some .NE
  else if s = "<" then some .LT
  else if s = "<=" then some .LTE
  else if s = ">" then some .GT
  else if s = ">=" then some .GTE
  else none

/-- `compareOp.Capture` applied to the matched operator text `values[0]`
(Go: `func (c *compareOp) Capture(values []string) error`). An unknown
operator text is a capture error and assigns no operator. -/
def compareOpCapture (s : String) : Except String compareOp :=
  match compareOpTable s with
  | some op => Except.ok op
  | none => Except.error ("not a valid operator: " ++ s)

/-! ## byteSlice.Capture (`src/unnamed/part_001`, lines 154-165) -/

/-- Value of one hexadecimal digit, the digit set of Go
`encoding/hex` (`0-9 a-f A-F`). -/
def hexDigitVal (c : Char) : Option Nat :=
  if c.toNat ≥ 48 ∧ c.toNat ≤ 57 then some (c.toNat - 48)
  else if c.toNat ≥ 97 ∧ c.toNat ≤ 102 then some (c.toNat - 97 + 10)
  else if c.toNat ≥ 65 ∧ c.toNat ≤ 70 then some (c.toNat - 65 + 10)
  else none

/-- Go `hex.DecodeString`: decodes pairs of hex digits into bytes, failing
on an odd-length input or a non-hex character. Bytes are `Nat` values. -/
def hexDecode : List Char → Option (List Nat)
  | [] => some []
  | [_] => none
  | a :: b :: rest =>
    match hexDigitVal a, hexDigitVal b, hexDecode rest with
    | some x, some y, some l => some ((16 * x + y) :: l)
    | _, _, _ => none

/-- Go `type byteSlice []byte`. -/
abbrev byteSlice := List Nat

/-- `byteSlice.Capture` applied to the matched token text `values[0]`:
strips the first two bytes (the `0x` of the matched `Bytes` token) and
hex-decodes the rest; a decode failure is a capture error. -/
def byteSliceCapture (s : String) : Except String byteSlice :=
  match hexDecode (s.data.drop 2) with
  | some bs => Except.ok bs
  | none => Except.error "encoding hex: decode failure"

/-! ## Lexer (`src/unnamed/part_001`, `buildLexer`, lines 185-205)

`buildLexer` constructs a participle simple lexer from an ordered list of
`(Name, Pattern)` rules.  At each position the rules are tried in order and
the first rule whose pattern matches at the current position produces the
token; rules whose name begins with a lowercase letter are elided from the
output.  Each regular-expression pattern below is transcribed into an
anchored matcher returning the number of characters matched. -/

/-- `[0-9]`, regex `\d`. -/
def isDigitC (c : Char) : Bool := c.isDigit

/-- `[a-fA-F0-9]`, the character class of the `Bytes` rule (code points
of `0-9`, `a-f`, `A-F`). -/
def isHexDigitC (c : Char) : Bool :=
  (48 ≤ c.toNat && c.toNat ≤ 57) || (97 ≤ c.toNat && c.toNat ≤ 102) ||
    (65 ≤ c.toNat && c.toNat ≤ 70)

/-- Regex word character `\w` = `[0-9A-Za-z_]`, used by `\b`. -/
def isWordC (c : Char) : Bool := c.isAlphanum || c = '_'

/-- `\b` on the side facing the rest of the input: the next character (if
any) is not a word character. -/
def boundaryAfter : List Char → Bool
  | [] => true
  | c :: _ => !isWordC c

/-- Rule `Bytes`, pattern `0x[a-fA-F0-9]+`. -/
def matchBytes : List Char → Option Nat
  | '0' :: 'x' :: rest =>
    let n := (rest.takeWhile isHexDigitC).length
    if n = 0 then none else some (2 + n)
  | _ => none

/-- The optional exponent group `([eE][-+]?\d+)?` of the `Float` rule;
returns the number of characters the group consumes (0 when it matches
empty). -/
def matchExp : List Char → Nat
  | c :: rest =>
    if c = 'e' ∨ c = 'E' then
      match rest with
      | c2 :: rest2 =>
        if c2 = '-' ∨ c2 = '+' then
          let d := (rest2.takeWhile isDigitC).length
          if d = 0 then 0 else 2 + d
        else
          let d := (rest.takeWhile isDigitC).length
          if d = 0 then 0 else 1 + d
      | [] => 0
    else 0
  | [] => 0

/-- Rule `Float`, pattern `[-+]?\d*\.\d+([eE][-+]?\d+)?`. -/
def matchFloat (cs : List Char) : Option Nat :=
  let sc := match cs with
    | c :: rest => if c = '-' ∨ c = '+' then (1, rest) else (0, cs)
    | [] => (0, cs)
  let d1 := (sc.2.takeWhile isDigitC).length
  match sc.2.drop d1 with
  | '.' :: cs3 =>
    let d2 := (cs3.takeWhile isDigitC).length
    if d2 = 0 then none
    else some (sc.1 + d1 + 1 + d2 + matchExp (cs3.drop d2))
  | _ => none

/-- Rule `Int`, pattern `[-+]?\d+`. -/
def matchInt (cs : List Char) : Option Nat :=
  let sc := match cs with
    | c :: rest => if c = '-' ∨ c = '+' then (1, rest) else (0, cs)
    | [] => (0, cs)
  let d := (sc.2.takeWhile isDigitC).length
  if d = 0 then none else some (sc.1 + d)

/-- Body of the `String` rule after the opening quote: leftmost-first
repetition of `(\\"|[^"])` followed by the closing quote; returns the
number of characters up to and including the closing quote. -/
def matchStringBody : List Char → Option Nat
  | [] => none
  | '"' :: _ => some 1
  | '\\' :: '"' :: rest =>
    (match matchStringBody rest with
     | some n => some (n + 2)
     -- the star backtracks: take the backslash alone via `[^"]` and let
     -- the quote close the literal
     | none => some 2)
  | _ :: rest =>
    (match matchStringBody rest with
     | some n => some (n + 1)
     | none => none)

/-- Rule `String`, pattern `"(\\"|[^"])*"`. -/
def matchString : List Char → Option Nat
  | '"' :: rest =>
    (match matchStringBody rest with
     | some n => some (n + 1)
     | none => none)
  | _ => none

/-- Rule `OpOr`, pattern `\b(or)\b` (anchored at the current position, so
the left boundary always holds before the word character `o`). -/
def matchOpOr : List Char → Option Nat
  | 'o' :: 'r' :: rest => if boundaryAfter rest then some 2 else none
  | _ => none

/-- Rule `OpAnd`, pattern `\b(and)\b`. -/
def matchOpAnd : List Char → Option Nat
  | 'a' :: 'n' :: 'd' :: rest => if boundaryAfter rest then some 3 else none
  | _ => none

/-- Rule `OpComparison`, pattern `==|!=|>=|<=|>|<` (alternatives tried
left to right). -/
def matchOpComparison : List Char → Option Nat
  | '=' :: '=' :: _ => some 2
  | '!' :: '=' :: _ => some 2
  | '>' :: '=' :: _ => some 2
  | '<' :: '=' :: _ => some 2
  | '>' :: _ => some 1
  | '<' :: _ => some 1
  | _ => none

/-- Rule `Boolean`, pattern `\b(true|false)\b`. -/
def matchBoolean : List Char → Option Nat
  | 't' :: 'r' :: 'u' :: 'e' :: rest => if boundaryAfter rest then some 4 else none
  | 'f' :: 'a' :: 'l' :: 's' :: 'e' :: rest => if boundaryAfter rest then some 5 else none
  | _ => none

/-- Rule `LParen`, pattern `\(`. -/
def matchLParen : List Char → Option Nat
  | '(' :: _ => some 1
  | _ => none

/-- Rule `RParen`, pattern `\)`. -/
def matchRParen : List Char → Option Nat
  | ')' :: _ => some 1
  | _ => none

/-- Rule `Punct`, pattern `[,.\[\]]`. -/
def matchPunct : List Char → Option Nat
  | c :: _ => if c = ',' ∨ c = '.' ∨ c = '[' ∨ c = ']' then some 1 else none
  | [] => none

/-- `[A-Z_]`. -/
def isUpperStart (c : Char) : Bool := (65 ≤ c.toNat && c.toNat ≤ 90) || c = '_'

/-- `[A-Z0-9_]`. -/
def isUpperCont (c : Char) : Bool := isUpperStart c || c.isDigit

/-- Rule `Uppercase`, pattern `[A-Z_][A-Z0-9_]*`. -/
def matchUppercase : List Char → Option Nat
  | c :: rest =>
    if isUpperStart c then some (1 + (rest.takeWhile isUpperCont).length) else none
  | [] => none

/-- `[a-z_]`. -/
def isLowerStart (c : Char) : Bool := (97 ≤ c.toNat && c.toNat ≤ 122) || c = '_'

/-- `[a-z0-9_]`. -/
def isLowerCont (c : Char) : Bool := isLowerStart c || c.isDigit

/-- Rule `Lowercase`, pattern `[a-z_][a-z0-9_]*`. -/
def matchLowercase : List Char → Option Nat
  | c :: rest =>
    if isLowerStart c then some (1 + (rest.takeWhile isLowerCont).length) else none
  | [] => none

/-- `\s` = `[ \t\n\r\f\v]`. -/
def isSpaceC (c : Char) : Bool :=
  c = ' ' ∨ c = '\t' ∨ c = '\n' ∨ c = '\r' ∨ c.toNat = 11 ∨ c.toNat = 12

/-- Rule `whitespace`, pattern `\s+` (elided: its name starts lowercase). -/
def matchWhitespace (cs : List Char) : Option Nat :=
  let n := (cs.takeWhile isSpaceC).length
  if n = 0 then none else some n

/-- The ordered rule list of `buildLexer`.  The order is exactly that of
the source; it is significant. -/
def lexRules : List (String × (List Char → Option Nat)) :=
  [("Bytes", matchBytes),
   ("Float", matchFloat),
   ("Int", matchInt),
   ("String", matchString),
   ("OpOr", matchOpOr),
   ("OpAnd", matchOpAnd),
   ("OpComparison", matchOpComparison),
   ("Boolean", matchBoolean),
   ("LParen", matchLParen),
   ("RParen", matchRParen),
   ("Punct", matchPunct),
   ("Uppercase", matchUppercase),
   ("Lowercase", matchLowercase),
   ("whitespace", matchWhitespace)]

/-- First rule (in order) whose pattern matches at the current position. -/
def firstMatch : List (String × (List Char → Option Nat)) → List Char →
    Option (String × Nat)
  | [], _ => none
  | (name, m) :: rs, cs =>
    match m cs with
    | some n => some (name, n)
    | none => firstMatch rs cs

/-- A lexer token: rule name and matched text. -/
structure Token where
  kind : String
  text : String
deriving DecidableEq

/-- Participle elides tokens of rules whose name begins with a lowercase
letter (here: `whitespace`). -/
def elidedRule (name : String) : Bool :=
  match name.data with
  | c :: _ => c.isLower
  | [] => false

/-- The lexer loop: repeatedly match the first applicable rule, emit the
token unless its rule is elided; unmatched input is a lex error (`none`). -/
def lex : Nat → List Char → Option (List Token)
  | _, [] => some []
  | 0, _ :: _ => none
  | fuel + 1, cs =>
    match firstMatch lexRules cs with
    | none => none
    | some (name, n) =>
      if n = 0 then none
      else
        match lex fuel (cs.drop n) with
        | none => none
        | some toks =>
          if elidedRule name then some toks
          else some (⟨name, String.mk (cs.take n)⟩ :: toks)

/-! ## AST (`src/unnamed/part_001`, lines 23-183)

The Go AST represents grammar alternatives as structs with several
pointer fields, at most one of which is populated by the parser; each
pointer field is modelled as an `Option` field.  Pointer fields that the
grammar always populates (`term.Left`, `booleanExpression.Left`,
`opAndBooleanValue.Value`, `opOrTerm.Term`) are modelled as plain
fields. -/

/-- Go `type boolean bool` (the `Boolean` capture type). -/
abbrev boolean := Bool

/-- Go `type isNil bool`. -/
abbrev isNil := Bool

/-- Go `type EnumSymbol string`. -/
abbrev EnumSymbol := String

/-- The text of a `String` token as captured (Go `*string`). -/
abbrev StrLit := String

/-- A `Float` literal, modelled by its captured token text (the `float64`
conversion plays no role in the claims under verification). -/
abbrev FloatLit := String

/-- An `Int` literal (Go `*int64`, modelled as unbounded `Int`). -/
abbrev IntLit := Int

/-- `Field` is an item within a `Path`:
`Name string` (a `Lowercase` token) and optional `MapKey *string`
(`'[' @String ']'`). -/
structure Field where
  Name : String
  MapKey : Option String
deriving DecidableEq

/-- `Path` represents a telemetry path expression:
`Fields []Field` (`@@ ( '.' @@ )*`). -/
structure Path where
  Fields : List Field
deriving DecidableEq

mutual

/-- Go `invocation`: `Function string` (`@(Uppercase | Lowercase)+`) and
`Arguments []value` (`'(' ( @@ ( ',' @@ )* )? ')'`). -/
inductive invocation where
  | mk (Function : String) (Arguments : List value)

/-- Go `value`: nine pointer fields, one per grammar alternative, tried
in source order. -/
inductive value where
  | mk (Invocation : Option invocation) (Bytes : Option byteSlice)
       (String : Option StrLit) (Float : Option FloatLit)
       (Int : Option IntLit) (Bool : Option boolean)
       (IsNil : Option isNil) (Enum : Option EnumSymbol)
       (Path : Option Path)

/-- Go `comparison`: `Left value`, `Op compareOp` (`@OpComparison` through
`compareOp.Capture`), `Right value`. -/
inductive comparison where
  | mk (Left : value) (Op : compareOp) (Right : value)

/-- Go `booleanValue`: `( comparison | @Boolean | '(' booleanExpression ')' )`. -/
inductive booleanValue where
  | mk (Comparison : Option comparison) (ConstExpr : Option boolean)
       (SubExpr : Option booleanExpression)

/-- Go `opAndBooleanValue`: `Operator string` (`@OpAnd`) and the right
operand. -/
inductive opAndBooleanValue where
  | mk (Operator : String) (Value : booleanValue)

/-- Go `term`: one `booleanValue` followed by `(and, booleanValue)` pairs. -/
inductive term where
  | mk (Left : booleanValue) (Right : List opAndBooleanValue)

/-- Go `opOrTerm`: `Operator string` (`@OpOr`) and the right operand. -/
inductive opOrTerm where
  | mk (Operator : String) (Term : term)

/-- Go `booleanExpression`: one `term` followed by `(or, term)` pairs. -/
inductive booleanExpression where
  | mk (Left : term) (Right : List opOrTerm)

end

/-- Go `parsedStatement`: an `invocation` and `( 'where' booleanExpression )?`. -/
structure parsedStatement where
  Invocation : invocation
  WhereClause : Option booleanExpression

/-! ## Parser

participle builds a recursive-descent parser from the struct tags above;
the functions below implement exactly that grammar over the lexer's token
stream.  Alternatives and optional groups backtrack on failure;
repetition is greedy.  `fuel` bounds the recursion depth; every claim is
stated either for all `fuel` or at a concrete sufficient `fuel`. -/

/-- Consume one token of the given rule kind, returning its text. -/
def matchKind (k : String) : List Token → Option (String × List Token)
  | t :: ts => if t.kind = k then some (t.text, ts) else none
  | [] => none

/-- Consume one token with the given literal text (participle literals
match by token text). -/
def matchText (s : String) : List Token → Option (List Token)
  | t :: ts => if t.text = s then some ts else none
  | [] => none

/-- `@(Uppercase | Lowercase)+` of `invocation.Function`: greedily consume
one or more identifier tokens, concatenating their texts. -/
def parseFuncName : List Token → Option (String × List Token)
  | t :: ts =>
    if t.kind = "Uppercase" ∨ t.kind = "Lowercase" then
      match parseFuncName ts with
      | some (s, r) => some (t.text ++ s, r)
      | none => some (t.text, ts)
    else none
  | [] => none

/-- One `Field`: `@Lowercase ( '[' @String ']' )?`; the optional map-key
group backtracks when it cannot complete. -/
def parseField (ts : List Token) : Option (Field × List Token) :=
  match matchKind "Lowercase" ts with
  | none => none
  | some (nm, ts1) =>
    match matchText "[" ts1 with
    | none => some (⟨nm, none⟩, ts1)
    | some ts2 =>
      match matchKind "String" ts2 with
      | none => some (⟨nm, none⟩, ts1)
      | some (k, ts3) =>
        match matchText "]" ts3 with
        | none => some (⟨nm, none⟩, ts1)
        | some ts4 => some (⟨nm, some k⟩, ts4)

/-- The `( '.' @@ )*` tail of a `Path`. -/
def parseFieldsRest : Nat → List Token → List Field × List Token
  | 0, ts => ([], ts)
  | fuel + 1, ts =>
    match matchText "." ts with
    | none => ([], ts)
    | some ts1 =>
      match parseField ts1 with
      | none => ([], ts)
      | some (f, ts2) =>
        let r := parseFieldsRest fuel ts2
        (f :: r.1, r.2)

/-- `Path`: `@@ ( '.' @@ )*`. -/
def parsePath (fuel : Nat) (ts : List Token) : Option (Path × List Token) :=
  match parseField ts with
  | none => none
  | some (f, ts1) =>
    let r := parseFieldsRest fuel ts1
    some (⟨f :: r.1⟩, r.2)

mutual

/-- `value`: the nine alternatives of the Go struct tags, tried in source
order (`invocation`, `Bytes`, `String`, `Float`, `Int`, `Boolean`,
`'nil'`, `Uppercase`, `Path`). -/
def parseValue : Nat → List Token → Option (value × List Token)
  | 0, _ => none
  | fuel + 1, ts =>
    match parseInvocation fuel ts with
    | some (i, r) => some (⟨some i, none, none, none, none, none, none, none, none⟩, r)
    | none =>
    match matchKind "Bytes" ts with
    | some (txt, r) =>
      (match byteSliceCapture txt with
       | .ok bs => some (⟨none, some bs, none, none, none, none, none, none, none⟩, r)
       | .error _ => none)
    | none =>
    match matchKind "String" ts with
    | some (txt, r) => some (⟨none, none, some txt, none, none, none, none, none, none⟩, r)
    | none =>
    match matchKind "Float" ts with
    | some (txt, r) => some (⟨none, none, none, some txt, none, none, none, none, none⟩, r)
    | none =>
    match matchKind "Int" ts with
    | some (txt, r) =>
      (match txt.toInt? with
       | some n => some (⟨none, none, none, none, some n, none, none, none, none⟩, r)
       | none => none)
    | none =>
    match matchKind "Boolean" ts with
    | some (txt, r) => some (⟨none, none, none, none, none, some (txt == "true"), none, none, none⟩, r)
    | none =>
    match matchText "nil" ts with
    | some r => some (⟨none, none, none, none, none, none, some true, none, none⟩, r)
    | none =>
    match matchKind "Uppercase" ts with
    | some (txt, r) => some (⟨none, none, none, none, none, none, none, some txt, none⟩, r)
    | none =>
    match parsePath fuel ts with
    | some (p, r) => some (⟨none, none, none, none, none, none, none, none, some p⟩, r)
    | none => none

/-- `invocation`: function name, `'('`, optional argument list, `')'`. -/
def parseInvocation : Nat → List Token → Option (invocation × List Token)
  | 0, _ => none
  | fuel + 1, ts =>
    match parseFuncName ts with
    | none => none
    | some (fn, ts1) =>
      match matchText "(" ts1 with
      | none => none
      | some ts2 =>
        match parseValue fuel ts2 with
        | none =>
          (match matchText ")" ts2 with
           | some ts3 => some (⟨fn, []⟩, ts3)
           | none => none)
        | some (v, ts3) =>
          let r := parseArgsRest fuel ts3
          match matchText ")" r.2 with
          | some ts4 => some (⟨fn, v :: r.1⟩, ts4)
          | none => none

/-- The `( ',' @@ )*` tail of an argument list. -/
def parseArgsRest : Nat → List Token → List value × List Token
  | 0, ts => ([], ts)
  | fuel + 1, ts =>
    match matchText "," ts with
    | none => ([], ts)
    | some ts1 =>
      match parseValue fuel ts1 with
      | none => ([], ts)
      | some (v, ts2) =>
        let r := parseArgsRest fuel ts2
        (v :: r.1, r.2)

/-- `comparison`: `@@ @OpComparison @@`, the operator text going through
`compareOp.Capture`. -/
def parseComparison : Nat → List Token → Option (comparison × List Token)
  | 0, _ => none
  | fuel + 1, ts =>
    match parseValue fuel ts with
    | none => none
    | some (l, ts1) =>
      match matchKind "OpComparison" ts1 with
      | none => none
      | some (opTxt, ts2) =>
        match compareOpCapture opTxt with
        | .error _ => none
        | .ok op =>
          match parseValue fuel ts2 with
          | none => none
          | some (r, ts3) => some (⟨l, op, r⟩, ts3)

/-- `booleanValue`: `( comparison | @Boolean | '(' booleanExpression ')' )`. -/
def parseBooleanValue : Nat → List Token → Option (booleanValue × List Token)
  | 0, _ => none
  | fuel + 1, ts =>
    match parseComparison fuel ts with
    | some (c, r) => some (⟨some c, none, none⟩, r)
    | none =>
    match matchKind "Boolean" ts with
    | some (txt, r) => some (⟨none, some (txt == "true"), none⟩, r)
    | none =>
    match matchText "(" ts with
    | none => none
    | some ts1 =>
      match parseBooleanExpression fuel ts1 with
      | none => none
      | some (e, ts2) =>
        match matchText ")" ts2 with
        | none => none
        | some ts3 => some (⟨none, none, some e⟩, ts3)

/-- The `@@*` tail of a `term`: `(@OpAnd booleanValue)*`. -/
def parseOpAndRest : Nat → List Token → List opAndBooleanValue × List Token
  | 0, ts => ([], ts)
  | fuel + 1, ts =>
    match matchKind "OpAnd" ts with
    | none => ([], ts)
    | some (opTxt, ts1) =>
      match parseBooleanValue fuel ts1 with
      | none => ([], ts)
      | some (v, ts2) =>
        let r := parseOpAndRest fuel ts2
        (⟨opTxt, v⟩ :: r.1, r.2)

/-- `term`: `@@ @@*`. -/
def parseTerm : Nat → List Token → Option (term × List Token)
  | 0, _ => none
  | fuel + 1, ts =>
    match parseBooleanValue fuel ts with
    | none => none
    | some (v, ts1) =>
      let r := parseOpAndRest fuel ts1
      some (⟨v, r.1⟩, r.2)

/-- The `@@*` tail of a `booleanExpression`: `(@OpOr term)*`. -/
def parseOpOrRest : Nat → List Token → List opOrTerm × List Token
  | 0, ts => ([], ts)
  | fuel + 1, ts =>
    match matchKind "OpOr" ts with
    | none => ([], ts)
    | some (opTxt, ts1) =>
      match parseTerm fuel ts1 with
      | none => ([], ts)
      | some (t, ts2) =>
        let r := parseOpOrRest fuel ts2
        (⟨opTxt, t⟩ :: r.1, r.2)

/-- `booleanExpression`: `@@ @@*`. -/
def parseBooleanExpression : Nat → List Token → Option (booleanExpression × List Token)
  | 0, _ => none
  | fuel + 1, ts =>
    match parseTerm fuel ts with
    | none => none
    | some (t, ts1) =>
      let r := parseOpOrRest fuel ts1
      some (⟨t, r.1⟩, r.2)

/-- `parsedStatement`: `@@ ( 'where' @@ )?`. -/
def parseStatement : Nat → List Token → Option (parsedStatement × List Token)
  | 0, _ => none
  | fuel + 1, ts =>
    match parseInvocation fuel ts with
    | none => none
    | some (i, ts1) =>
      match matchText "where" ts1 with
      | none => some (⟨i, none⟩, ts1)
      | some ts2 =>
        match parseBooleanExpression fuel ts2 with
        | none => some (⟨i, none⟩, ts1)
        | some (e, ts3) => some (⟨i, some e⟩, ts3)

end

/-! ## The "exactly one variant populated" invariant -/

/-- 1 if the optional field is populated, 0 otherwise. -/
def countO {α : Type} : Option α → Nat
  | none => 0
  | some _ => 1

mutual

/-- Every `value` node in the tree has exactly one of its nine variant
fields populated. -/
inductive value.OneCase : value → Prop where
  | mk (i : Option invocation) (b : Option byteSlice) (s : Option StrLit)
       (f : Option FloatLit) (n : Option IntLit) (bo : Option boolean)
       (nl : Option isNil) (e : Option EnumSymbol) (p : Option Path) :
      countO i + countO b + countO s + countO f + countO n + countO bo +
        countO nl + countO e + countO p = 1 →
      (∀ x, i = some x → invocation.OneCase x) →
      value.OneCase (value.mk i b s f n bo nl e p)

/-- All argument values of an invocation satisfy `value.OneCase`. -/
inductive invocation.OneCase : invocation → Prop where
  | mk (fn : String) (args : List value) :
      (∀ v, v ∈ args → value.OneCase v) →
      invocation.OneCase (invocation.mk fn args)

/-- Both sides of a comparison satisfy `value.OneCase`. -/
inductive comparison.OneCase : comparison → Prop where
  | mk (l : value) (op : compareOp) (r : value) :
      value.OneCase l → value.OneCase r →
      comparison.OneCase (comparison.mk l op r)

/-- Every `booleanValue` node in the tree has exactly one of its three
variant fields populated. -/
inductive booleanValue.OneCase : booleanValue → Prop where
  | mk (c : Option comparison) (ce : Option boolean)
       (se : Option booleanExpression) :
      countO c + countO ce + countO se = 1 →
      (∀ x, c = some x → comparison.OneCase x) →
      (∀ x, se = some x → booleanExpression.OneCase x) →
      booleanValue.OneCase (booleanValue.mk c ce se)

inductive opAndBooleanValue.OneCase : opAndBooleanValue → Prop where
  | mk (op : String) (v : booleanValue) :
      booleanValue.OneCase v →
      opAndBooleanValue.OneCase (opAndBooleanValue.mk op v)

inductive term.OneCase : term → Prop where
  | mk (l : booleanValue) (r : List opAndBooleanValue) :
      booleanValue.OneCase l →
      (∀ x, x ∈ r → opAndBooleanValue.OneCase x) →
      term.OneCase (term.mk l r)

inductive opOrTerm.OneCase : opOrTerm → Prop where
  | mk (op : String) (t : term) :
      term.OneCase t →
      opOrTerm.OneCase (opOrTerm.mk op t)

inductive booleanExpression.OneCase : booleanExpression → Prop where
  | mk (l : term) (r : List opOrTerm) :
      term.OneCase l →
      (∀ x, x ∈ r → opOrTerm.OneCase x) →
      booleanExpression.OneCase (booleanExpression.mk l r)

end

/-- The whole-AST invariant for a parsed statement. -/
def parsedStatement.OneCase (ps : parsedStatement) : Prop :=
  invocation.OneCase ps.Invocation ∧
    ∀ e, ps.WhereClause = some e → booleanExpression.OneCase e

/-! Helper lemmas: each parser production site populates exactly one
variant field. -/

theorem valueOneCase_invocation {i : invocation} (h : invocation.OneCase i) :
    value.OneCase (value.mk (some i) none none none none none none none none) :=
  .mk _ _ _ _ _ _ _ _ _ rfl (fun x hx => by cases hx; exact h)

theorem valueOneCase_bytes (b : byteSlice) :
    value.OneCase (value.mk none (some b) none none none none none none none) :=
  .mk _ _ _ _ _ _ _ _ _ rfl (fun x hx => by cases hx)

theorem valueOneCase_string (s : StrLit) :
    value.OneCase (value.mk none none (some s) none none none none none none) :=
  .mk _ _ _ _ _ _ _ _ _ rfl (fun x hx => by cases hx)

theorem valueOneCase_float (f : FloatLit) :
    value.OneCase (value.mk none none none (some f) none none none none none) :=
  .mk _ _ _ _ _ _ _ _ _ rfl (fun x hx => by cases hx)

theorem valueOneCase_int (n : IntLit) :
    value.OneCase (value.mk none none none none (some n) none none none none) :=
  .mk _ _ _ _ _ _ _ _ _ rfl (fun x hx => by cases hx)

theorem valueOneCase_bool (b : boolean) :
    value.OneCase (value.mk none none none none none (some b) none none none) :=
  .mk _ _ _ _ _ _ _ _ _ rfl (fun x hx => by cases hx)

theorem valueOneCase_nil :
    value.OneCase (value.mk none none none none none none (some true) none none) :=
  .mk _ _ _ _ _ _ _ _ _ rfl (fun x hx => by cases hx)

theorem valueOneCase_enum (e : EnumSymbol) :
    value.OneCase (value.mk none none none none none none none (some e) none) :=
  .mk _ _ _ _ _ _ _ _ _ rfl (fun x hx => by cases hx)

theorem valueOneCase_path (p : Path) :
    value.OneCase (value.mk none none none none none none none none (some p)) :=
  .mk _ _ _ _ _ _ _ _ _ rfl (fun x hx => by cases hx)

theorem booleanValueOneCase_comparison {c : comparison} (h : comparison.OneCase c) :
    booleanValue.OneCase (booleanValue.mk (some c) none none) :=
  .mk _ _ _ rfl (fun x hx => by cases hx; exact h) (fun x hx => by cases hx)

theorem booleanValueOneCase_const (b : boolean) :
    booleanValue.OneCase (booleanValue.mk none (some b) none) :=
  .mk _ _ _ rfl (fun x hx => by cases hx) (fun x hx => by cases hx)

theorem booleanValueOneCase_subExpr {e : booleanExpression}
    (h : booleanExpression.OneCase e) :
    booleanValue.OneCase (booleanValue.mk none none (some e)) :=
  .mk _ _ _ rfl (fun x hx => by cases hx) (fun x hx => by cases hx; exact h)

/-- Main induction: every node the parser produces, at any fuel, has
exactly one variant populated. -/
theorem parserOneCaseAux : ∀ fuel : Nat,
    (∀ ts out rest, parseValue fuel ts = some (out, rest) → value.OneCase out) ∧
    (∀ ts out rest, parseInvocation fuel ts = some (out, rest) →
      invocation.OneCase out) ∧
    (∀ ts v, v ∈ (parseArgsRest fuel ts).1 → value.OneCase v) ∧
    (∀ ts out rest, parseComparison fuel ts = some (out, rest) →
      comparison.OneCase out) ∧
    (∀ ts out rest, parseBooleanValue fuel ts = some (out, rest) →
      booleanValue.OneCase out) ∧
    (∀ ts x, x ∈ (parseOpAndRest fuel ts).1 → opAndBooleanValue.OneCase x) ∧
    (∀ ts out rest, parseTerm fuel ts = some (out, rest) → term.OneCase out) ∧
    (∀ ts x, x ∈ (parseOpOrRest fuel ts).1 → opOrTerm.OneCase x) ∧
    (∀ ts out rest, parseBooleanExpression fuel ts = some (out, rest) →
      booleanExpression.OneCase out) ∧
    (∀ ts out rest, parseStatement fuel ts = some (out, rest) →
      parsedStatement.OneCase out) := by
  intro fuel
  induction fuel with
  | zero =>
    refine ⟨?_, ?_, ?_, ?_, ?_, ?_, ?_, ?_, ?_, ?_⟩ <;> intro ts a b <;>
      first
        | (intro h; simp [parseValue, parseInvocation, parseComparison,
            parseBooleanValue, parseTerm, parseBooleanExpression,
            parseStatement] at h)
        | simp [parseArgsRest, parseOpAndRest, parseOpOrRest] at b
  | succ fuel ih =>
    obtain ⟨ihV, ihI, ihA, ihC, ihBV, ihAnd, ihT, ihOr, ihBE, ihS⟩ := ih
    refine ⟨?_, ?_, ?_, ?_, ?_, ?_, ?_, ?_, ?_, ?_⟩
    · -- parseValue
      intro ts out rest h
      simp only [parseValue] at h
      split at h
      · rename_i i r heq
        obtain ⟨rfl, rfl⟩ := by simpa using h
        exact valueOneCase_invocation (ihI ts i r heq)
      · split at h
        · split at h
          · rename_i _ _ txt r _ bs hcap
            obtain ⟨rfl, rfl⟩ := by simpa using h
            exact valueOneCase_bytes bs
          · exact absurd h (by simp)
        · split at h
          · rename_i txt r heq
            obtain ⟨rfl, rfl⟩ := by simpa using h
            exact valueOneCase_string txt
          · split at h
            · rename_i txt r heq
              obtain ⟨rfl, rfl⟩ := by simpa using h
              exact valueOneCase_float txt
            · split at h
              · split at h
                · rename_i _ _ txt r _ n hint
                  obtain ⟨rfl, rfl⟩ := by simpa using h
                  exact valueOneCase_int n
                · exact absurd h (by simp)
              · split at h
                · rename_i txt r heq
                  obtain ⟨rfl, rfl⟩ := by simpa using h
                  exact valueOneCase_bool (txt == "true")
                · split at h
                  · rename_i r heq
                    obtain ⟨rfl, rfl⟩ := by simpa using h
                    exact valueOneCase_nil
                  · split at h
                    · rename_i txt r heq
                      obtain ⟨rfl, rfl⟩ := by simpa using h
                      exact valueOneCase_enum txt
                    · split at h
                      · rename_i p r heq
                        obtain ⟨rfl, rfl⟩ := by simpa using h
                        exact valueOneCase_path p
                      · exact absurd h (by simp)
    · -- parseInvocation
      intro ts out rest h
      simp only [parseInvocation] at h
      split at h
      · exact absurd h (by simp)
      · rename_i fn ts1 heq
        split at h
        · exact absurd h (by simp)
        · rename_i ts2 hpar
          split at h
          · split at h
            · rename_i ts3 hrp
              obtain ⟨rfl, rfl⟩ := by simpa using h
              exact .mk _ _ (fun v hv => by cases hv)
            · exact absurd h (by simp)
          · rename_i v ts3 hval
            split at h
            · rename_i ts4 hrp
              obtain ⟨rfl, rfl⟩ := by simpa using h
              refine .mk _ _ (fun w hw => ?_)
              rcases List.mem_cons.mp hw with rfl | hw2
              · exact ihV ts2 w ts3 hval
              · exact ihA ts3 w hw2
            · exact absurd h (by simp)
    · -- parseArgsRest
      intro ts v hv
      simp only [parseArgsRest] at hv
      split at hv
      · simp at hv
      · rename_i ts1 heq
        split at hv
        · simp at hv
        · rename_i w ts2 hval
          simp only [List.mem_cons] at hv
          rcases hv with rfl | hv2
          · exact ihV ts1 v ts2 hval
          · exact ihA ts2 v hv2
    · -- parseComparison
      intro ts out rest h
      simp only [parseComparison] at h
      split at h
      · exact absurd h (by simp)
      · rename_i l ts1 hl
        split at h
        · exact absurd h (by simp)
        · rename_i opTxt ts2 hop
          split at h
          · exact absurd h (by simp)
          · rename_i op hcap
            split at h
            · exact absurd h (by simp)
            · rename_i r ts3 hr
              obtain ⟨rfl, rfl⟩ := by simpa using h
              exact .mk _ _ _ (ihV ts l ts1 hl) (ihV ts2 r ts3 hr)
    · -- parseBooleanValue
      intro ts out rest h
      simp only [parseBooleanValue] at h
      split at h
      · rename_i c r hc
        obtain ⟨rfl, rfl⟩ := by simpa using h
        exact booleanValueOneCase_comparison (ihC ts c r hc)
      · split at h
        · rename_i txt r heq
          obtain ⟨rfl, rfl⟩ := by simpa using h
          exact booleanValueOneCase_const (txt == "true")
        · split at h
          · exact absurd h (by simp)
          · rename_i ts1 hlp
            split at h
            · exact absurd h (by simp)
            · rename_i e ts2 he
              split at h
              · exact absurd h (by simp)
              · rename_i ts3 hrp
                obtain ⟨rfl, rfl⟩ := by simpa using h
                exact booleanValueOneCase_subExpr (ihBE ts1 e ts2 he)
    · -- parseOpAndRest
      intro ts x hx
      simp only [parseOpAndRest] at hx
      split at hx
      · simp at hx
      · rename_i opTxt ts1 hop
        split at hx
        · simp at hx
        · rename_i v ts2 hv
          simp only [List.mem_cons] at hx
          rcases hx with rfl | hx2
          · exact .mk _ _ (ihBV ts1 v ts2 hv)
          · exact ihAnd ts2 x hx2
    · -- parseTerm
      intro ts out rest h
      simp only [parseTerm] at h
      split at h
      · exact absurd h (by simp)
      · rename_i v ts1 hv
        obtain ⟨rfl, rfl⟩ := by simpa using h
        exact .mk _ _ (ihBV ts v ts1 hv) (fun x hx => ihAnd ts1 x hx)
    · -- parseOpOrRest
      intro ts x hx
      simp only [parseOpOrRest] at hx
      split at hx
      · simp at hx
      · rename_i opTxt ts1 hop
        split at hx
        · simp at hx
        · rename_i t ts2 ht
          simp only [List.mem_cons] at hx
          rcases hx with rfl | hx2
          · exact .mk _ _ (ihT ts1 t ts2 ht)
          · exact ihOr ts2 x hx2
    · -- parseBooleanExpression
      intro ts out rest h
      simp only [parseBooleanExpression] at h
      split at h
      · exact absurd h (by simp)
      · rename_i t ts1 ht
        obtain ⟨rfl, rfl⟩ := by simpa using h
        exact .mk _ _ (ihT ts t ts1 ht) (fun x hx => ihOr ts1 x hx)
    · -- parseStatement
      intro ts out rest h
      simp only [parseStatement] at h
      split at h
      · exact absurd h (by simp)
      · rename_i i ts1 hi
        split at h
        · obtain ⟨rfl, rfl⟩ := by simpa using h
          exact ⟨ihI ts i ts1 hi, fun e he => by cases he⟩
        · rename_i ts2 hw
          split at h
          · obtain ⟨rfl, rfl⟩ := by simpa using h
            exact ⟨ihI ts i ts1 hi, fun e he => by cases he⟩
          · rename_i e ts3 he
            obtain ⟨rfl, rfl⟩ := by simpa using h
            exact ⟨ihI ts i ts1 hi, fun e2 he2 => by
              cases he2; exact ihBE ts2 _ ts3 he⟩

/-! ## Resource context path resolution
(`src/pkg/translator/prometheusremotewrite/helper.go`, second document,
package `ottlcommon`, lines 558-628)

`pcommon` values (`Resource`, `Map`) are reference types: a `Map` value
is a handle into shared storage, and `CopyTo` copies contents between the
storage cells of two handles without changing either handle.  The model
makes this explicit: a context owns a heap of map cells indexed by `Nat`
references; the resource's attribute map is one such cell.  A dynamic
(`interface{}`) value is a tagged `Val`; Go type assertions are `match`es
on the tag. -/

/-- A dynamic (`interface{}`) value as passed to a Setter or returned by
a Getter.  `vResource` carries the foreign resource's attribute-map
reference and its dropped-attributes count; `vMap` carries a map
reference. -/
inductive Val where
  | vNil
  | vResource (attrsRef : Nat) (droppedAttributesCount : Nat)
  | vMap (ref : Nat)
  | vInt (i : Int)
  | vStr (s : String)
  | vBool (b : Bool)
deriving DecidableEq

/-- The resource context (the instantiation of the Go type parameter
`K ResourceContext`): a heap of map cells, the reference of the
resource's attribute map, and the resource's `dropped_attributes_count`
(a `uint32`). -/
structure ResourceCtx where
  heap : Nat → List (String × Val)
  resAttrsRef : Nat
  resDropped : Nat

/-- Pointwise heap update. -/
def updateHeap (h : Nat → List (String × Val)) (i : Nat)
    (v : List (String × Val)) : Nat → List (String × Val) :=
  fun j => if j = i then v else h j

/-- `ottl.StandardGetSetter[K]` at the resource context.  The Go Setter
mutates the context and returns nothing; the model returns the updated
context.  Its `func(ctx K, val interface{})` shape has no error channel:
a Setter cannot report a failure. -/
structure StandardGetSetter where
  Getter : ResourceCtx → Val
  Setter : ResourceCtx → Val → ResourceCtx

/-- `accessResource`: Getter returns the resource; Setter type-asserts a
`pcommon.Resource` and `CopyTo`s it into the live resource (attribute
contents and dropped count), silently doing nothing otherwise. -/
def accessResource : StandardGetSetter where
  Getter := fun ctx => Val.vResource ctx.resAttrsRef ctx.resDropped
  Setter := fun ctx val =>
    match val with
    | .vResource aRef d =>
      { ctx with
        heap := updateHeap ctx.heap ctx.resAttrsRef (ctx.heap aRef)
        resDropped := d }
    | _ => ctx

/-- `accessResourceAttributes`: Getter returns the attributes map
(a reference); Setter type-asserts a `pcommon.Map` and `CopyTo`s its
contents into the resource's existing attribute cell — the stored
reference is not replaced. -/
def accessResourceAttributes : StandardGetSetter where
  Getter := fun ctx => Val.vMap ctx.resAttrsRef
  Setter := fun ctx val =>
    match val with
    | .vMap r => { ctx with heap := updateHeap ctx.heap ctx.resAttrsRef (ctx.heap r) }
    | _ => ctx

/-- Modelled from the spec: `GetMapValue` (package `ottlcommon`, not under
`src/`) reads the entry of one map key — "`attributes["k"]` as one
entry"; an absent key yields the nil value. -/
def GetMapValue (m : List (String × Val)) (k : String) : Val :=
  match m.find? (fun e => e.1 = k) with
  | some e => e.2
  | none => .vNil

/-- Modelled from the spec: `SetMapValue` (package `ottlcommon`, not under
`src/`) writes the entry of one map key — replacing an existing entry or
appending a new one. -/
def SetMapValue (m : List (String × Val)) (k : String) (v : Val) :
    List (String × Val) :=
  match m with
  | [] => [(k, v)]
  | e :: rest => if e.1 = k then (k, v) :: rest else e :: SetMapValue rest k v

/-- `accessResourceAttributesKey`: accessor for the single attribute
entry `mapKey`. -/
def accessResourceAttributesKey (mapKey : String) : StandardGetSetter where
  Getter := fun ctx => GetMapValue (ctx.heap ctx.resAttrsRef) mapKey
  Setter := fun ctx val =>
    { ctx with
      heap := updateHeap ctx.heap ctx.resAttrsRef
        (SetMapValue (ctx.heap ctx.resAttrsRef) mapKey val) }

/-- `accessResourceDroppedAttributesCount`: Getter returns
`int64(DroppedAttributesCount())`; Setter type-asserts an `int64` and
stores `uint32(i)` (reduction modulo `2 ^ 32`), silently doing nothing
otherwise. -/
def accessResourceDroppedAttributesCount : StandardGetSetter where
  Getter := fun ctx => Val.vInt (ctx.resDropped : Int)
  Setter := fun ctx val =>
    match val with
    | .vInt i => { ctx with resDropped := (i % (2 ^ 32 : Int)).toNat }
    | _ => ctx

/-- Rendering of a path for the error message (Go `fmt.Errorf("invalid
resource path expression %v", path)`); only the fact that the message
begins with the fixed text matters below. -/
def pathStr (path : List Field) : String :=
  String.intercalate " " (path.map (fun f => f.Name))

/-- `ResourcePathGetSetter`: dispatch on `path[0].Name` (an empty path
resolves to the whole resource). -/
def ResourcePathGetSetter (path : List Field) :
    Except String StandardGetSetter :=
  match path with
  | [] => .ok accessResource
  | f :: _ =>
    if f.Name = "attributes" then
      match f.MapKey with
      | none => .ok accessResourceAttributes
      | some k => .ok (accessResourceAttributesKey k)
    else if f.Name = "dropped_attributes_count" then
      .ok accessResourceDroppedAttributesCount
    else
      .error ("invalid resource path expression " ++ pathStr path)

/-! ## Cumulative histogram buckets
(`src/pkg/translator/prometheusremotewrite/helper.go`,
`addSingleHistogramDataPoint`, lines 316-356)

The per-bound loop `for i := 0; i < pt.ExplicitBounds().Len() && i <
pt.BucketCounts().Len(); i++` accumulates the `uint64` counter
`cumulativeCount` and emits one bucket sample per bound; afterwards the
`le="+Inf"` sample adds the last bucket count (when any) to the counter.
Explicit bounds are `float64` values used only for the `le` label; they
are modelled as rationals carried along unchanged.  Sample values are the
counter values (the `float64(cumulativeCount)` conversion is exact below
`2 ^ 53` and plays no role in the claims); the `uint64` counter is
reduced modulo `2 ^ 64`. -/

/-- The bound loop: returns the `(bound, value)` bucket samples and the
final `cumulativeCount`. -/
def histLoop : Nat → List ℚ → List Nat → List (ℚ × Nat) × Nat
  | acc, [], _ => ([], acc)
  | acc, _ :: _, [] => ([], acc)
  | acc, b :: bs, c :: cs =>
    let acc2 := (acc + c) % 2 ^ 64
    let r := histLoop acc2 bs cs
    ((b, acc2) :: r.1, r.2)

/-- The bucket samples of `addSingleHistogramDataPoint` for a data point
without the `NoRecordedValue` flag: the per-bound samples and the value
of the `+Inf` bucket sample. -/
def addSingleHistogramDataPointBuckets (explicitBounds : List ℚ)
    (bucketCounts : List Nat) : List (ℚ × Nat) × Nat :=
  let r := histLoop 0 explicitBounds bucketCounts
  (r.1,
    if 0 < bucketCounts.length then (r.2 + bucketCounts.getLastD 0) % 2 ^ 64
    else r.2)

/-! ## Histogram lemmas -/

theorem getLastD_of_ne_nil (cs : List Nat) (a b : Nat) (h : cs ≠ []) :
    cs.getLastD a = cs.getLastD b := by
  cases cs with
  | nil => exact absurd rfl h
  | cons x xs => rfl

theorem take_pred_sum : ∀ cs : List Nat, cs ≠ [] →
    (cs.take (cs.length - 1)).sum + cs.getLastD 0 = cs.sum := by
  intro cs
  induction cs with
  | nil => intro h; exact absurd rfl h
  | cons c cs ih =>
    intro _
    cases cs with
    | nil => simp
    | cons c2 rest =>
      have hne : c2 :: rest ≠ [] := by simp
      have h1 : (c :: c2 :: rest).length - 1 = (c2 :: rest).length - 1 + 1 := by
        simp
      rw [h1, List.take_succ_cons, List.sum_cons, List.getLastD_cons,
        getLastD_of_ne_nil _ c 0 hne, Nat.add_assoc, ih hne]
      simp

theorem sum_take_le (cs : List Nat) (n : Nat) : (cs.take n).sum ≤ cs.sum := by
  conv_rhs => rw [← List.take_append_drop n cs]
  rw [List.sum_append]
  exact Nat.le_add_right _ _

/-- Values and final counter of the bucket loop, for any initial counter
below `2 ^ 64`. -/
theorem histLoop_spec : ∀ (bs : List ℚ) (cs : List Nat) (acc : Nat),
    acc < 2 ^ 64 →
    (∀ i (h1 : i < bs.length), i < cs.length →
      (histLoop acc bs cs).1[i]? =
        some (bs.get ⟨i, h1⟩, (acc + (cs.take (i + 1)).sum) % 2 ^ 64)) ∧
    (histLoop acc bs cs).2 =
      (acc + (cs.take (min bs.length cs.length)).sum) % 2 ^ 64 := by
  intro bs
  induction bs with
  | nil =>
    intro cs acc hacc
    constructor
    · intro i h1 _; simp at h1
    · simp [histLoop]; omega
  | cons b bs ih =>
    intro cs acc hacc
    cases cs with
    | nil =>
      constructor
      · intro i _ h2; simp at h2
      · simp [histLoop]; omega
    | cons c cs =>
      have hacc2 : (acc + c) % 2 ^ 64 < 2 ^ 64 := Nat.mod_lt _ (by positivity)
      obtain ⟨ih1, ih2⟩ := ih cs ((acc + c) % 2 ^ 64) hacc2
      constructor
      · intro i h1 h2
        match i with
        | 0 => simp [histLoop]
        | i + 1 =>
          simp only [histLoop, List.getElem?_cons_succ]
          rw [ih1 i (by simpa using h1) (by simpa using h2)]
          rw [List.take_succ_cons, List.sum_cons, Nat.mod_add_mod,
            Nat.add_assoc]
          simp
      · simp only [histLoop]
        rw [ih2]
        have hmin : min (b :: bs).length (c :: cs).length =
            min bs.length cs.length + 1 := by
          simp only [List.length_cons]
          omega
        rw [hmin, List.take_succ_cons, List.sum_cons, Nat.mod_add_mod,
          Nat.add_assoc]

/-- C1: for a cumulative histogram data point whose bucket-counts list
has one more entry than its explicit-bounds list,
`addSingleHistogramDataPoint` emits, for the i-th explicit bound, a
bucket sample whose value is the (uint64) sum of bucket counts 0 through
i, and a `+Inf` bucket sample whose value is the sum of all bucket
counts; when the total fits in a uint64 these are the exact mathematical
sums. -/
theorem addSingleHistogramDataPoint_cumulative :
    ∀ (bounds : List ℚ) (counts : List Nat),
      counts.length = bounds.length + 1 →
      (∀ i (h1 : i < bounds.length),
        (addSingleHistogramDataPointBuckets bounds counts).1[i]? =
          some (bounds.get ⟨i, h1⟩, (counts.take (i + 1)).sum % 2 ^ 64)) ∧
      (addSingleHistogramDataPointBuckets bounds counts).2 =
        counts.sum % 2 ^ 64 ∧
      (counts.sum < 2 ^ 64 →
        (∀ i (h1 : i < bounds.length),
          (addSingleHistogramDataPointBuckets bounds counts).1[i]? =
            some (bounds.get ⟨i, h1⟩, (counts.take (i + 1)).sum)) ∧
        (addSingleHistogramDataPointBuckets bounds counts).2 = counts.sum) := by
  intro bounds counts hlen
  have hM : (0 : Nat) < 2 ^ 64 := by positivity
  obtain ⟨h1, h2⟩ := histLoop_spec bounds counts 0 hM
  have hmin : min bounds.length counts.length = bounds.length := by omega
  have hcne : counts ≠ [] := by
    intro h; rw [h] at hlen; simp at hlen
  have hguard : 0 < counts.length := by omega
  have hA : ∀ i (hi : i < bounds.length),
      (addSingleHistogramDataPointBuckets bounds counts).1[i]? =
        some (bounds.get ⟨i, hi⟩, (counts.take (i + 1)).sum % 2 ^ 64) := by
    intro i hi
    have := h1 i hi (by omega)
    simpa [addSingleHistogramDataPointBuckets] using this
  have hB : (addSingleHistogramDataPointBuckets bounds counts).2 =
      counts.sum % 2 ^ 64 := by
    simp only [addSingleHistogramDataPointBuckets, if_pos hguard]
    rw [h2, hmin, Nat.mod_add_mod, Nat.zero_add]
    have hidx : bounds.length = counts.length - 1 := by omega
    rw [hidx, take_pred_sum counts hcne]
  refine ⟨hA, hB, fun hs => ⟨?_, ?_⟩⟩
  · intro i hi
    rw [hA i hi,
      Nat.mod_eq_of_lt (lt_of_le_of_lt (sum_take_le counts (i + 1)) hs)]
  · rw [hB, Nat.mod_eq_of_lt hs]

/-- C1, instantiated at the spec's example: bounds `[1.5, 2, 4]` with
per-bucket counts `[4, 2, 3, 7]` yield cumulative bucket values
`[4, 6, 9]` and a `+Inf` value of `16`, the total count. -/
theorem addSingleHistogramDataPoint_cumulative_example :
    ([4, 2, 3, 7] : List Nat).length = ([3/2, 2, 4] : List ℚ).length + 1 ∧
    (addSingleHistogramDataPointBuckets [3/2, 2, 4] [4, 2, 3, 7]).1.map
      Prod.snd = [4, 6, 9] ∧
    (addSingleHistogramDataPointBuckets [3/2, 2, 4] [4, 2, 3, 7]).2 = 16 ∧
    (addSingleHistogramDataPointBuckets [3/2, 2, 4] [4, 2, 3, 7]).2 =
      ([4, 2, 3, 7] : List Nat).sum % 2 ^ 64 :=
  ⟨by decide, by decide, by decide,
    (addSingleHistogramDataPoint_cumulative [3/2, 2, 4] [4, 2, 3, 7]
      (by decide)).2.1⟩

/-! ## Resource path resolution claims -/

/-- C2, counterexample: contrary to the claim, a path that does not fully
match the resource context's table still resolves.  A map key on the
non-map field `dropped_attributes_count`, and trailing fields after
`attributes`, are ignored rather than rejected. -/
theorem resourcePath_partial_match_resolves :
    (ResourcePathGetSetter [⟨"dropped_attributes_count", some "k"⟩]).isOk
      = true ∧
    (ResourcePathGetSetter [⟨"attributes", none⟩, ⟨"foo", none⟩]).isOk
      = true ∧
    ResourcePathGetSetter [⟨"attributes", none⟩, ⟨"foo", none⟩] =
      .ok accessResourceAttributes :=
  ⟨rfl, rfl, rfl⟩

/-- C2, amended: resolution against the resource context inspects only
the first field's name — it succeeds exactly when that name is
`attributes` or `dropped_attributes_count`, regardless of any map key on
`dropped_attributes_count` or of trailing fields, and fails with the
"invalid path expression" error otherwise. -/
theorem resourcePath_first_field_decides :
    ∀ (f : Field) (rest : List Field),
      (ResourcePathGetSetter (f :: rest)).isOk = true ↔
        (f.Name = "attributes" ∨ f.Name = "dropped_attributes_count") := by
  intro f rest
  simp only [ResourcePathGetSetter]
  by_cases h1 : f.Name = "attributes"
  · cases f.MapKey <;> simp [h1, Except.isOk, Except.toBool]
  · by_cases h2 : f.Name = "dropped_attributes_count" <;>
      simp [h1, h2, Except.isOk, Except.toBool]

/-- C3: resolving a non-empty path against the resource context succeeds
exactly for first field name `attributes` (whole map without a key, the
single-entry accessor with a key) or `dropped_attributes_count` (the
scalar accessor); every other first field name yields an error whose
message contains "invalid resource path expression" and no GetSetter. -/
theorem ResourcePathGetSetter_cases :
    ∀ (f : Field) (rest : List Field),
      (f.Name = "attributes" → f.MapKey = none →
        ResourcePathGetSetter (f :: rest) = .ok accessResourceAttributes) ∧
      (∀ k, f.Name = "attributes" → f.MapKey = some k →
        ResourcePathGetSetter (f :: rest) =
          .ok (accessResourceAttributesKey k)) ∧
      (f.Name = "dropped_attributes_count" →
        ResourcePathGetSetter (f :: rest) =
          .ok accessResourceDroppedAttributesCount) ∧
      (f.Name ≠ "attributes" → f.Name ≠ "dropped_attributes_count" →
        ∃ s, ResourcePathGetSetter (f :: rest) =
          .error ("invalid resource path expression " ++ s)) := by
  intro f rest
  refine ⟨?_, ?_, ?_, ?_⟩
  · intro h1 h2
    simp [ResourcePathGetSetter, h1, h2]
  · intro k h1 h2
    simp [ResourcePathGetSetter, h1, h2]
  · intro h1
    have : f.Name ≠ "attributes" := by rw [h1]; decide
    simp [ResourcePathGetSetter, h1, this]
  · intro h1 h2
    exact ⟨pathStr (f :: rest), by simp [ResourcePathGetSetter, h1, h2]⟩

/-- C3, instantiated: the four cases at concrete paths. -/
theorem ResourcePathGetSetter_cases_example :
    ResourcePathGetSetter [⟨"attributes", none⟩] =
      .ok accessResourceAttributes ∧
    ResourcePathGetSetter [⟨"attributes", some "k"⟩] =
      .ok (accessResourceAttributesKey "k") ∧
    ResourcePathGetSetter [⟨"dropped_attributes_count", none⟩] =
      .ok accessResourceDroppedAttributesCount ∧
    ∃ s, ResourcePathGetSetter [⟨"name", none⟩] =
      .error ("invalid resource path expression " ++ s) :=
  ⟨(ResourcePathGetSetter_cases ⟨"attributes", none⟩ []).1 rfl rfl,
   (ResourcePathGetSetter_cases ⟨"attributes", some "k"⟩ []).2.1 "k" rfl rfl,
   (ResourcePathGetSetter_cases ⟨"dropped_attributes_count", none⟩ []).2.2.1
     rfl,
   (ResourcePathGetSetter_cases ⟨"name", none⟩ []).2.2.2 (by decide)
     (by decide)⟩

/-- C7: the Setter of the whole-map `attributes` accessor, given a map
value, copies that map's contents into the record's existing attribute
cell: the stored reference is unchanged, the cell afterwards holds the
given map's entries, every other cell (hence any aliasing of it) is
untouched, and the rest of the resource is unchanged. -/
theorem accessResourceAttributes_set_copies :
    ∀ (ctx : ResourceCtx) (r : Nat),
      (accessResourceAttributes.Setter ctx (Val.vMap r)).resAttrsRef
        = ctx.resAttrsRef ∧
      (accessResourceAttributes.Setter ctx (Val.vMap r)).heap
        ctx.resAttrsRef = ctx.heap r ∧
      (accessResourceAttributes.Setter ctx (Val.vMap r)).resDropped
        = ctx.resDropped ∧
      ∀ j, j ≠ ctx.resAttrsRef →
        (accessResourceAttributes.Setter ctx (Val.vMap r)).heap j
          = ctx.heap j := by
  intro ctx r
  refine ⟨rfl, ?_, rfl, ?_⟩
  · simp [accessResourceAttributes, updateHeap]
  · intro j hj
    simp [accessResourceAttributes, updateHeap, hj]

/-- A small concrete context used to instantiate the Setter claims. -/
def ctx0 : ResourceCtx where
  heap := fun j => if j = 1 then [("a", Val.vStr "x")] else []
  resAttrsRef := 0
  resDropped := 5

/-- C7, instantiated: copying map cell 1 into the record's cell 0. -/
theorem accessResourceAttributes_set_copies_example :
    (accessResourceAttributes.Setter ctx0 (Val.vMap 1)).heap 0 =
      [("a", Val.vStr "x")] ∧
    (accessResourceAttributes.Setter ctx0 (Val.vMap 1)).heap 2 = [] :=
  ⟨((accessResourceAttributes_set_copies ctx0 1).2.1).trans rfl,
   ((accessResourceAttributes_set_copies ctx0 1).2.2.2 2 (by decide)).trans
     rfl⟩

/-- C10: each Setter produced by resource-context path resolution, called
with a value whose dynamic type does not match the target field, is a
silent no-op: the context is returned completely unchanged (and the
Setter type has no error channel). -/
theorem resource_setters_type_mismatch_noop :
    (∀ (ctx : ResourceCtx) (v : Val), (∀ a d, v ≠ Val.vResource a d) →
      accessResource.Setter ctx v = ctx) ∧
    (∀ (ctx : ResourceCtx) (v : Val), (∀ r, v ≠ Val.vMap r) →
      accessResourceAttributes.Setter ctx v = ctx) ∧
    (∀ (ctx : ResourceCtx) (v : Val), (∀ i, v ≠ Val.vInt i) →
      accessResourceDroppedAttributesCount.Setter ctx v = ctx) := by
  refine ⟨?_, ?_, ?_⟩ <;> intro ctx v hv <;> cases v <;>
    first
      | rfl
      | exact absurd rfl (hv _ _)
      | exact absurd rfl (hv _)

/-- C10, instantiated: mismatched dynamic types leave `ctx0` unchanged. -/
theorem resource_setters_type_mismatch_noop_example :
    accessResource.Setter ctx0 (Val.vStr "x") = ctx0 ∧
    accessResourceAttributes.Setter ctx0 (Val.vInt 3) = ctx0 ∧
    accessResourceDroppedAttributesCount.Setter ctx0 (Val.vBool true)
      = ctx0 :=
  ⟨resource_setters_type_mismatch_noop.1 ctx0 _ (fun a d h => by cases h),
   resource_setters_type_mismatch_noop.2.1 ctx0 _ (fun r h => by cases h),
   resource_setters_type_mismatch_noop.2.2 ctx0 _ (fun i h => by cases h)⟩

/-! ## compareOp claims -/

/-- C4: `compareOp.Capture` maps operator text through the fixed table
one-to-one — exactly the six operator strings succeed, each yielding its
table entry (`==`→EQ, `!=`→NE, `<`→LT, `<=`→LTE, `>`→GT, `>=`→GTE) —
and every other string is a capture (parse) error assigning no
operator. -/
theorem compareOp_Capture_table :
    (∀ s op, compareOpCapture s = .ok op ↔
      (s, op) ∈ ([("==", .EQ), ("!=", .NE), ("<", .LT), ("<=", .LTE),
        (">", .GT), (">=", .GTE)] : List (String × compareOp))) ∧
    ∀ s, s ∉ (["==", "!=", "<", "<=", ">", ">="] : List String) →
      ∃ e, compareOpCapture s = .error e := by
  constructor
  · intro s op
    constructor
    · intro h
      unfold compareOpCapture compareOpTable at h
      split_ifs at h <;> simp_all
    · intro h
      simp only [List.mem_cons, List.not_mem_nil, or_false,
        Prod.mk.injEq] at h
      rcases h with ⟨rfl, rfl⟩ | ⟨rfl, rfl⟩ | ⟨rfl, rfl⟩ | ⟨rfl, rfl⟩ |
        ⟨rfl, rfl⟩ | ⟨rfl, rfl⟩ <;> rfl
  · intro s hs
    simp only [List.mem_cons, List.not_mem_nil, or_false, not_or] at hs
    obtain ⟨h1, h2, h3, h4, h5, h6⟩ := hs
    refine ⟨"not a valid operator: " ++ s, ?_⟩
    simp [compareOpCapture, compareOpTable, h1, h2, h3, h4, h5, h6]

/-- C4, instantiated: `==` captures EQ; `<>` is a capture error. -/
theorem compareOp_Capture_table_example :
    compareOpCapture "==" = .ok .EQ ∧
    ∃ e, compareOpCapture "<>" = .error e :=
  ⟨(compareOp_Capture_table.1 "==" .EQ).mpr (by decide),
   compareOp_Capture_table.2 "<>" (by decide)⟩

/-! ## Grammar-shape claims -/

/-- C5: `or` binds looser than `and`.  A `booleanExpression` is one term
followed by `(or, term)` pairs and a `term` is one `booleanValue`
followed by `(and, booleanValue)` pairs, so an input of the form
`A and B or C` (here with Boolean-literal tokens of arbitrary text)
parses as `(A and B) or C`: `A and B` forms the first term, `C` alone
forms the second. -/
theorem booleanExpression_or_binds_looser :
    ∀ ta tb tc : String,
      parseBooleanExpression 9
        [⟨"Boolean", ta⟩, ⟨"OpAnd", "and"⟩, ⟨"Boolean", tb⟩,
         ⟨"OpOr", "or"⟩, ⟨"Boolean", tc⟩] =
      some (booleanExpression.mk
        (term.mk (booleanValue.mk none (some (ta == "true")) none)
          [opAndBooleanValue.mk "and"
            (booleanValue.mk none (some (tb == "true")) none)])
        [opOrTerm.mk "or"
          (term.mk (booleanValue.mk none (some (tc == "true")) none) [])],
        []) :=
  fun _ _ _ => rfl

/-- C8: every `booleanValue` node and every `value` node in an AST
produced by a successful parse has exactly one variant field populated
(as do all other multi-variant nodes). -/
theorem parse_exactly_one_variant :
    ∀ fuel ts ps rest, parseStatement fuel ts = some (ps, rest) →
      parsedStatement.OneCase ps :=
  fun fuel ts ps rest h =>
    (parserOneCaseAux fuel).2.2.2.2.2.2.2.2.2 ts ps rest h

/-- C8, instantiated at the parse of `drop()`. -/
theorem parse_exactly_one_variant_example :
    parsedStatement.OneCase ⟨invocation.mk "drop" [], none⟩ :=
  parse_exactly_one_variant 9
    [⟨"Lowercase", "drop"⟩, ⟨"LParen", "("⟩, ⟨"RParen", ")"⟩] _ [] rfl

/-! ## Lexer and hex-decoding lemmas -/

/-- Total hex-digit value (0 for non-digits), for stating decode
results. -/
def hexVal (c : Char) : Nat := (hexDigitVal c).getD 0

theorem hexDigitVal_isSome {c : Char} (h : isHexDigitC c = true) :
    ∃ v, hexDigitVal c = some v := by
  unfold isHexDigitC at h
  unfold hexDigitVal
  simp only [Bool.or_eq_true, Bool.and_eq_true, decide_eq_true_eq] at h
  split_ifs with h1 h2 h3
  · exact ⟨_, rfl⟩
  · exact ⟨_, rfl⟩
  · exact ⟨_, rfl⟩
  · omega

theorem takeWhile_all (p : Char → Bool) :
    ∀ l : List Char, (∀ c ∈ l, p c = true) → l.takeWhile p = l := by
  intro l
  induction l with
  | nil => intro _; rfl
  | cons c l ih =>
    intro hall
    rw [List.takeWhile_cons_of_pos (hall c (by simp)),
      ih (fun d hd => hall d (by simp [hd]))]

theorem take_takeWhile_length (p : Char → Bool) :
    ∀ l : List Char, l.take (l.takeWhile p).length = l.takeWhile p := by
  intro l
  induction l with
  | nil => rfl
  | cons c l ih =>
    by_cases h : p c
    · rw [List.takeWhile_cons_of_pos h]
      simp only [List.length_cons, List.take_succ_cons, ih]
    · rw [List.takeWhile_cons_of_neg (by simp [h])]
      rfl

theorem hexDecode_odd : ∀ (n : Nat) (ds : List Char), ds.length ≤ n →
    ds.length % 2 = 1 → hexDecode ds = none := by
  intro n
  induction n with
  | zero =>
    intro ds hle hodd
    have : ds.length = 0 := Nat.le_zero.mp hle
    omega
  | succ n ih =>
    intro ds hle hodd
    match ds with
    | [] => simp at hodd
    | [a] => rfl
    | a :: b :: rest =>
      have hr : hexDecode rest = none := by
        apply ih rest
        · simp only [List.length_cons] at hle; omega
        · simp only [List.length_cons] at hodd; omega
      cases hva : hexDigitVal a <;> cases hvb : hexDigitVal b <;>
        simp [hexDecode, hva, hvb, hr]

theorem hexDecode_even : ∀ (n : Nat) (ds : List Char), ds.length ≤ n →
    (∀ c ∈ ds, isHexDigitC c = true) → ds.length % 2 = 0 →
    ∃ bs, hexDecode ds = some bs ∧ bs.length = ds.length / 2 ∧
      ∀ i a b, ds[2 * i]? = some a → ds[2 * i + 1]? = some b →
        bs[i]? = some (16 * hexVal a + hexVal b) := by
  intro n
  induction n with
  | zero =>
    intro ds hle _ _
    have h0 : ds.length = 0 := Nat.le_zero.mp hle
    have : ds = [] := List.length_eq_zero.mp h0
    subst this
    exact ⟨[], rfl, rfl, fun i a b ha _ => by simp at ha⟩
  | succ n ih =>
    intro ds hle hhex heven
    match ds with
    | [] => exact ⟨[], rfl, rfl, fun i a b ha _ => by simp at ha⟩
    | [a] => simp at heven
    | a :: b :: rest =>
      obtain ⟨x, hx⟩ := hexDigitVal_isSome (hhex a (by simp))
      obtain ⟨y, hy⟩ := hexDigitVal_isSome (hhex b (by simp))
      obtain ⟨bs, hbs, hlen, hidx⟩ := ih rest
        (by simp only [List.length_cons] at hle; omega)
        (fun c hc => hhex c (by simp [hc]))
        (by simp only [List.length_cons] at heven ⊢; omega)
      refine ⟨(16 * x + y) :: bs, ?_, ?_, ?_⟩
      · simp [hexDecode, hx, hy, hbs]
      · simp only [List.length_cons, hlen]; omega
      · intro i av bv ha hb
        match i with
        | 0 =>
          simp only [Nat.mul_zero, List.getElem?_cons_zero,
            Option.some.injEq, Nat.zero_add, List.getElem?_cons_succ] at ha hb
          subst ha
          subst hb
          simp [hexVal, hx, hy]
        | i + 1 =>
          have e1 : 2 * (i + 1) = 2 * i + 1 + 1 := by ring
          have e2 : 2 * (i + 1) + 1 = 2 * i + 1 + 1 + 1 := by ring
          rw [e1] at ha
          rw [e2] at hb
          simp only [List.getElem?_cons_succ] at ha hb
          simpa using hidx i av bv ha hb

/-- C9: a `Bytes` token `0x` followed by hex digits always matches the
lexer's `Bytes` pattern, but `byteSlice.Capture` errors when the digit
string has odd length (hex decoding fails), so such a statement fails to
parse; for an even-length digit string the captured byte slice is
exactly the hex decoding of the digit pairs. -/
theorem byteSlice_Capture_hex :
    ∀ ds : List Char, (∀ c ∈ ds, isHexDigitC c = true) → ds ≠ [] →
      matchBytes ('0' :: 'x' :: ds) = some (2 + ds.length) ∧
      (ds.length % 2 = 1 →
        ∃ e, byteSliceCapture (String.mk ('0' :: 'x' :: ds)) =
          .error e) ∧
      (ds.length % 2 = 0 →
        ∃ bs, byteSliceCapture (String.mk ('0' :: 'x' :: ds)) = .ok bs ∧
          bs.length = ds.length / 2 ∧
          ∀ i a b, ds[2 * i]? = some a → ds[2 * i + 1]? = some b →
            bs[i]? = some (16 * hexVal a + hexVal b)) := by
  intro ds hhex hne
  have hd : (String.mk ('0' :: 'x' :: ds)).data.drop 2 = ds := rfl
  refine ⟨?_, ?_, ?_⟩
  · simp only [matchBytes, takeWhile_all _ ds hhex]
    have : ds.length ≠ 0 := by
      cases ds with
      | nil => exact absurd rfl hne
      | cons c l => simp
    simp [this]
  · intro hodd
    refine ⟨"encoding hex: decode failure", ?_⟩
    simp [byteSliceCapture, hd, hexDecode_odd ds.length ds le_rfl hodd]
  · intro heven
    obtain ⟨bs, h1, h2, h3⟩ :=
      hexDecode_even ds.length ds le_rfl hhex heven
    refine ⟨bs, ?_, h2, h3⟩
    simp [byteSliceCapture, hd, h1]

/-- C9, instantiated: `0xFFF` (odd digit count) is a capture error;
`0x0a` captures the byte slice `[0x0a]`. -/
theorem byteSlice_Capture_hex_example :
    (∃ e, byteSliceCapture (String.mk ['0', 'x', 'F', 'F', 'F']) =
      .error e) ∧
    ∃ bs, byteSliceCapture (String.mk ['0', 'x', '0', 'a']) = .ok bs ∧
      bs.length = (['0', 'a'] : List Char).length / 2 ∧
      ∀ i a b, (['0', 'a'] : List Char)[2 * i]? = some a →
        (['0', 'a'] : List Char)[2 * i + 1]? = some b →
        bs[i]? = some (16 * hexVal a + hexVal b) :=
  ⟨(byteSlice_Capture_hex ['F', 'F', 'F'] (by decide) (by decide)).2.1
      (by decide),
   (byteSlice_Capture_hex ['0', 'a'] (by decide) (by decide)).2.2
      (by decide)⟩

/-- C6: the `Bytes` rule is first in the lexer's ordered rule list, ahead
of `Float` and `Int`, so on input `0x` followed by at least one hex digit
the first emitted token is a single `Bytes` token covering the whole
maximal hex literal (while the `Int` rule alone would have matched only
the leading `0`, splitting the literal). -/
theorem lexer_bytes_rule_first :
    ∀ (h : Char) (rest : List Char), isHexDigitC h = true →
      lexRules.map Prod.fst =
        ["Bytes", "Float", "Int", "String", "OpOr", "OpAnd",
         "OpComparison", "Boolean", "LParen", "RParen", "Punct",
         "Uppercase", "Lowercase", "whitespace"] ∧
      firstMatch lexRules ('0' :: 'x' :: h :: rest) =
        some ("Bytes", 3 + (rest.takeWhile isHexDigitC).length) ∧
      matchInt ('0' :: 'x' :: h :: rest) = some 1 ∧
      ∀ fuel toks, lex fuel ('0' :: 'x' :: h :: rest) = some toks →
        toks.head? = some ⟨"Bytes",
          String.mk ('0' :: 'x' :: h :: rest.takeWhile isHexDigitC)⟩ := by
  intro h rest hh
  have htw : (h :: rest).takeWhile isHexDigitC =
      h :: rest.takeWhile isHexDigitC := List.takeWhile_cons_of_pos hh
  have hbytes : matchBytes ('0' :: 'x' :: h :: rest) =
      some (3 + (rest.takeWhile isHexDigitC).length) := by
    simp only [matchBytes, htw, List.length_cons]
    have hnz : (rest.takeWhile isHexDigitC).length + 1 ≠ 0 := by omega
    rw [if_neg hnz]
    simp only [Option.some.injEq]
    omega
  have hfm : firstMatch lexRules ('0' :: 'x' :: h :: rest) =
      some ("Bytes", 3 + (rest.takeWhile isHexDigitC).length) := by
    simp [firstMatch, lexRules, hbytes]
  refine ⟨rfl, hfm, rfl, ?_⟩
  intro fuel toks hlex
  cases fuel with
  | zero => simp [lex] at hlex
  | succ fuel =>
    simp only [lex, hfm] at hlex
    have hne2 : ¬(3 + (rest.takeWhile isHexDigitC).length = 0) := by omega
    rw [if_neg hne2] at hlex
    split at hlex
    · exact absurd hlex (by simp)
    · rename_i toks2 hrec
      rw [show elidedRule "Bytes" = false from rfl] at hlex
      simp only [Bool.false_eq_true, if_false, reduceIte,
        Option.some.injEq] at hlex
      have htake : ('0' :: 'x' :: h :: rest).take
          (3 + (rest.takeWhile isHexDigitC).length) =
          '0' :: 'x' :: h :: rest.takeWhile isHexDigitC := by
        rw [show 3 + (rest.takeWhile isHexDigitC).length =
            (rest.takeWhile isHexDigitC).length + 1 + 1 + 1 from by omega]
        simp only [List.take_succ_cons, take_takeWhile_length]
      rw [htake] at hlex
      rw [← hlex]
      rfl

/-- C6, instantiated at input `0xff`. -/
theorem lexer_bytes_rule_first_example :
    isHexDigitC 'f' = true ∧
    ([Token.mk "Bytes" "0xff"] : List Token).head? =
      some (Token.mk "Bytes"
        (String.mk ('0' :: 'x' :: 'f' :: (['f'].takeWhile isHexDigitC)))) :=
  ⟨by decide,
   (lexer_bytes_rule_first 'f' ['f'] (by decide)).2.2.2 4
     [Token.mk "Bytes" "0xff"] (by decide)⟩

end OTTL
